import Mathlib

/-!
Verification of the simtree/modypy hybrid simulation engine.

This file gives a shallow embedding, in Lean 4, of the parts of the
repository that the specification talks about:

* `src/simtree/simulator.py`: the `SimulationResult` append-only result
  store and the `Simulator` hybrid stepper (`step` / `run`).
* `src/modypy/model/states.py`: the `State` class and its slice of the
  global state vector.

Machine floating-point numbers are modelled by `ℚ`; the claims under
study are about control flow, data flow and bookkeeping, not about
rounding.  numpy arrays are modelled by lists; `np.empty` buffers are
modelled by buffers filled with an arbitrary `junk` value that every
theorem quantifies over, so that nothing proved can depend on
uninitialized storage.  The external scipy integrator is modelled by an
abstract strategy `OdeSolver σ` (`σ` being the integrator's private
state) exposing exactly the interface the simulator uses: the
constructor, `step`, `dense_output`, `t`, `y` and `status`.  The
external root finder `scipy.optimize.brentq` is modelled by an abstract
function parameter `bq`.  Python exceptions escaping `Simulator.step`
(the `assert last_t <= tc <= self.t` in the source) are modelled by an
outer `Option`: `none` is an escaped exception.
-/

/-- `np.sign` on a scalar. -/
def sign (x : ℚ) : ℚ :=
  if x < 0 then -1 else if 0 < x then 1 else 0

def INITIAL_RESULT_SIZE : Nat := 16

def RESULT_SIZE_EXTENSION : Nat := 16

/-- The interface of the "system" objects consumed by
`simtree.simulator.Simulator`: dimensions, the initial condition and the
four callback functions the simulator invokes
(cf. the `Simulator` docstring and call sites in `simulator.py`). -/
structure System where
  num_states : Nat
  num_outputs : Nat
  num_events : Nat
  initial_condition : List ℚ
  output_function : ℚ → List ℚ → List ℚ
  state_update_function : ℚ → List ℚ → List ℚ → List ℚ
  event_function : ℚ → List ℚ → List ℚ → List ℚ
  update_state_function : ℚ → List ℚ → List ℚ → List ℚ

/-- `simtree.simulator.SimulationResult`: pre-allocated columnar buffers
plus the number `current_idx` of logically appended rows. -/
structure SimulationResult where
  system : System
  _t : List ℚ
  _state : List (List ℚ)
  _output : List (List ℚ)
  _events : List (List Bool)
  current_idx : Nat

/-- `SimulationResult.__init__`: buffers of capacity
`INITIAL_RESULT_SIZE`; `_t`, `_state` and `_output` come from `np.empty`
(arbitrary contents `junk`), `_events` from `np.zeros(..., dtype=bool)`. -/
def SimulationResult.init (system : System) (junk : ℚ) : SimulationResult where
  system := system
  _t := List.replicate INITIAL_RESULT_SIZE junk
  _state := List.replicate INITIAL_RESULT_SIZE (List.replicate system.num_states junk)
  _output := List.replicate INITIAL_RESULT_SIZE (List.replicate system.num_outputs junk)
  _events := List.replicate INITIAL_RESULT_SIZE (List.replicate system.num_events false)
  current_idx := 0

/-- Property `SimulationResult.t`: the slice `self._t[0:self.current_idx]`. -/
def SimulationResult.t (r : SimulationResult) : List ℚ :=
  r._t.take r.current_idx

/-- Property `SimulationResult.state`: `self._state[0:self.current_idx]`. -/
def SimulationResult.state (r : SimulationResult) : List (List ℚ) :=
  r._state.take r.current_idx

/-- Property `SimulationResult.output`: `self._output[0:self.current_idx]`. -/
def SimulationResult.output (r : SimulationResult) : List (List ℚ) :=
  r._output.take r.current_idx

/-- Property `SimulationResult.events`: `self._events[0:self.current_idx]`. -/
def SimulationResult.events (r : SimulationResult) : List (List Bool) :=
  r._events.take r.current_idx

/-- `SimulationResult.extend_space`: grow every buffer by
`RESULT_SIZE_EXTENSION` rows via `np.r_`; the new `_t`/`_state`/`_output`
rows come from `np.empty` (contents `junk`), the new `_events` rows from
`np.zeros`. -/
def SimulationResult.extend_space (junk : ℚ) (r : SimulationResult) : SimulationResult :=
  { r with
    _t := r._t ++ List.replicate RESULT_SIZE_EXTENSION junk
    _state := r._state ++
      List.replicate RESULT_SIZE_EXTENSION (List.replicate r.system.num_states junk)
    _output := r._output ++
      List.replicate RESULT_SIZE_EXTENSION (List.replicate r.system.num_outputs junk)
    _events := r._events ++
      List.replicate RESULT_SIZE_EXTENSION (List.replicate r.system.num_events false) }

/-- `SimulationResult.append`: extend storage if the append would exceed
capacity, write the row at `current_idx` (for `_events`, set only the
single flag `event` of the row when an event index is given), then
increment `current_idx`.  Row indices are in bounds at every call site,
so `List.set` faithfully models the numpy element assignment. -/
def SimulationResult.append (junk : ℚ) (r : SimulationResult)
    (t : ℚ) (state output : List ℚ) (event : Option Nat) : SimulationResult :=
  let r := if r._t.length ≤ r.current_idx then r.extend_space junk else r
  { r with
    _t := r._t.set r.current_idx t
    _state := r._state.set r.current_idx state
    _output := r._output.set r.current_idx output
    _events :=
      match event with
      | none => r._events
      | some e => r._events.set r.current_idx ((r._events.getD r.current_idx []).set e true)
    current_idx := r.current_idx + 1 }

/-- Well-formedness of a result store: buffers of equal capacity, the
logical length bounded by the capacity, and every not-yet-written
`_events` row still in its `np.zeros` (all-`false`) initial state. -/
def SimulationResult.wf (r : SimulationResult) : Prop :=
  r._state.length = r._t.length ∧
  r._output.length = r._t.length ∧
  r._events.length = r._t.length ∧
  r.current_idx ≤ r._t.length ∧
  ∀ i, i < r._t.length → r.current_idx ≤ i →
    r._events.getD i [] = List.replicate r.system.num_events false

instance (r : SimulationResult) : Decidable r.wf := by
  unfold SimulationResult.wf
  infer_instance

/-- `rootfinder_options`: the dictionary passed to the `Simulator`;
`simulator.py` only ever reads the keys `"xtol"` and `"maxiter"`
(cf. `DEFAULT_ROOTFINDER_OPTIONS`). -/
structure RootOptions where
  xtol : ℚ
  maxiter : ℚ

/-- The integrator interface the simulator relies on, per its docstring:
"the interface of `scipy.integrate.OdeSolver` ... specifically using the
constructor, the `step` and the `dense_output` functions as well as the
`status` property".  `σ` is the integrator's private state.  The
constructor `init` receives the option dictionary (modelled as an
association list), the derivative function, `t0`, `y0` and `t_bound`.
`step` returns the optional failure message together with the mutated
state; `dense_output` returns the interpolator for the last step. -/
structure OdeSolver (σ : Type) where
  init : List (String × ℚ) → (ℚ → List ℚ → List ℚ) → ℚ → List ℚ → ℚ → σ
  t : σ → ℚ
  y : σ → List ℚ
  status : σ → String
  step : σ → Option String × σ
  dense_output : σ → ℚ → List ℚ

/-- `simtree.simulator.Simulator`: the fields stored by `__init__`. -/
structure Simulator (σ : Type) where
  system : System
  tbound : ℚ
  result : SimulationResult
  integrator_constructor : OdeSolver σ
  integrator_options : List (String × ℚ)
  rootfinder_constructor : (ℚ → ℚ) → ℚ → ℚ → ℚ
  rootfinder_options : RootOptions
  integrator : σ

/-- Property `Simulator.output`:
`self.system.output_function(self.t, self.state)`. -/
def Simulator.output {σ : Type} (sim : Simulator σ) : List ℚ :=
  sim.system.output_function (sim.integrator_constructor.t sim.integrator)
    (sim.integrator_constructor.y sim.integrator)

/-- Property `Simulator.event_values`:
`self.system.event_function(self.t, self.state, self.output)`. -/
def Simulator.event_values {σ : Type} (sim : Simulator σ) : List ℚ :=
  sim.system.event_function (sim.integrator_constructor.t sim.integrator)
    (sim.integrator_constructor.y sim.integrator) sim.output

/-- Property `Simulator.running`:
`self.integrator.status == "running"`. -/
def Simulator.running {σ : Type} (sim : Simulator σ) : Bool :=
  sim.integrator_constructor.status sim.integrator == "running"

/-- `Simulator.state_derivative_function`: outputs at `(t, state)`, then
the state derivative at `(t, state, outputs)`. -/
def Simulator.state_derivative_function {σ : Type} (sim : Simulator σ) :
    ℚ → List ℚ → List ℚ :=
  fun t state =>
    let outputs := sim.system.output_function t state
    sim.system.state_update_function t state outputs

/-- The candidate events of a step: the indices at which
`np.sign(old_event_values) != np.sign(new_event_values)`
(`np.flatnonzero` yields them in ascending order).  `old` and `new` are
the event vectors before and after the integration step; event vectors
have the declared length `num_events`. -/
def eventsOccurred (numEvents : Nat) (old new : List ℚ) : List Nat :=
  (List.range numEvents).filter
    (fun i => decide (sign (old.getD i 0) ≠ sign (new.getD i 0)))

/-- The local `event_interpolator` closure of `Simulator.step`:
interpolated state, then outputs, then the event vector. -/
def eventInterpolator (system : System) (interpolator : ℚ → List ℚ) :
    ℚ → List ℚ :=
  fun t =>
    let state := interpolator t
    let outputs := system.output_function t state
    system.event_function t state outputs

/-- The root-finding loop of `Simulator.step`: for each candidate index,
`tc = scipy.optimize.brentq(f=lambda t: event_interpolator(t)[eventidx],
a=last_t, b=self.t)` followed by `assert last_t <= tc <= self.t`; the
pairs `(eventidx, tc)` are collected in candidate order.  A failing
assertion (an escaped exception) is `none`. -/
def computeCrossings (bq : (ℚ → ℚ) → ℚ → ℚ → ℚ) (g : ℚ → List ℚ)
    (a b : ℚ) : List Nat → Option (List (Nat × ℚ))
  | [] => some []
  | i :: rest =>
    let tc := bq (fun t => (g t).getD i 0) a b
    if a ≤ tc ∧ tc ≤ b then
      match computeCrossings bq g a b rest with
      | some l => some ((i, tc) :: l)
      | none => none
    else none

/-- The comparison `Python list.sort(key=lambda entry: entry[1])` sorts
by: ascending second component, stably. -/
def crossLE (p q : Nat × ℚ) : Bool :=
  decide (p.2 ≤ q.2)

/-- `Simulator.step`, translated line by line from `simulator.py`.
`bq` is the external `scipy.optimize.brentq` (hard-coded at the call
site in the source); `junk` fills storage allocated by `np.empty`.  The
outer `Option` models an exception escaping the Python method (a failed
`assert`, or `tcross[0]` on an empty list); `some (msg?, sim')` is a
normal return of `msg?` with the mutated simulator `sim'`. -/
def Simulator.step {σ : Type} (bq : (ℚ → ℚ) → ℚ → ℚ → ℚ) (junk : ℚ)
    (sim : Simulator σ) : Option (Option String × Simulator σ) :=
  let old_event_values := sim.event_values
  let last_t := sim.integrator_constructor.t sim.integrator
  let stepres := sim.integrator_constructor.step sim.integrator
  let sim1 : Simulator σ := { sim with integrator := stepres.2 }
  match stepres.1 with
  | some msg => some (some msg, sim1)
  | none =>
    let new_event_values := sim1.event_values
    let events_occurred :=
      eventsOccurred sim.system.num_events old_event_values new_event_values
    if 0 < events_occurred.length then
      let interpolator := sim1.integrator_constructor.dense_output sim1.integrator
      match computeCrossings bq (eventInterpolator sim.system interpolator)
          last_t (sim1.integrator_constructor.t sim1.integrator) events_occurred with
      | none => none
      | some tcross =>
        match tcross.mergeSort crossLE with
        | [] => none
        | (event_idx, event_t) :: _ =>
          let event_state := interpolator event_t
          let event_outputs := sim.system.output_function event_t event_state
          let result1 :=
            sim1.result.append junk event_t event_state event_outputs (some event_idx)
          let next_t := event_t + sim.rootfinder_options.xtol / 2
          let next_state := interpolator next_t
          let next_outputs := sim.system.output_function next_t next_state
          let new_state :=
            sim.system.update_state_function next_t next_state next_outputs
          let integ2 := sim.integrator_constructor.init sim.integrator_options
            sim.state_derivative_function next_t new_state sim.tbound
          some (none, { sim1 with result := result1, integrator := integ2 })
    else
      some (none, { sim1 with
        result := sim1.result.append junk
          (sim1.integrator_constructor.t sim1.integrator)
          (sim1.integrator_constructor.y sim1.integrator) sim1.output none })

/-- `Simulator.run`: `while self.running: message = self.step(); if
message is not None: return message` — a while loop, embedded with
explicit fuel.  `none` is an exhausted fuel budget or an escaped
exception from `step`; `some (msg?, sim')` is the Python return value
`msg?` together with the final simulator state. -/
def Simulator.run {σ : Type} (bq : (ℚ → ℚ) → ℚ → ℚ → ℚ) (junk : ℚ) :
    Nat → Simulator σ → Option (Option String × Simulator σ)
  | 0, sim => if sim.running then none else some (none, sim)
  | fuel + 1, sim =>
    if sim.running then
      match sim.step bq junk with
      | none => none
      | some (some msg, sim1) => some (some msg, sim1)
      | some (none, sim1) => Simulator.run bq junk fuel sim1
    else
      some (none, sim)

/-- The states reachable from `a` by a chain of successful
(message-`none`) steps, each taken from a `running` simulator. -/
inductive RunReach {σ : Type} (bq : (ℚ → ℚ) → ℚ → ℚ → ℚ) (junk : ℚ) :
    Simulator σ → Simulator σ → Prop
  | refl (s : Simulator σ) : RunReach bq junk s s
  | head {a b c : Simulator σ} : a.running = true →
      a.step bq junk = some (none, b) → RunReach bq junk b c → RunReach bq junk a c

/-- Modelled from the spec: the shape bookkeeping of
`modypy.model.ports.AbstractSignal` (file `ports.py` is not in the
sources).  Per the spec, a signal/state has a fixed shape (scalar or
fixed-size array); its `size` is the number of scalar elements, the
product of the dimensions. -/
structure AbstractSignal where
  shape : List Nat
  deriving DecidableEq

/-- The number of scalar lines of a shaped entity. -/
def AbstractSignal.size (s : AbstractSignal) : Nat :=
  s.shape.prod

/-- Modelled from the spec: the state-allocation bookkeeping of
`modypy.model.system.System` (file `system.py` is not in the sources).
Per the spec, "the System is the root owner and is the sole authority
for index allocation" and "slice offsets are assigned once, at
state-creation time"; slices are contiguous, pairwise disjoint and
cover exactly `[0, num_states)`, so `allocate_state_lines` hands out
the next `count` free lines and advances the allocation mark. -/
structure SysModel where
  num_states : Nat
  states : List (AbstractSignal × List ℚ × Nat)

/-- Modelled from the spec: `System.allocate_state_lines(count)` returns
the first index of a fresh block of `count` lines. -/
def SysModel.allocate_state_lines (sys : SysModel) (count : Nat) : Nat × SysModel :=
  (sys.num_states, { sys with num_states := sys.num_states + count })

/-- One constructed `modypy.model.states.State`: its shape, its stored
`initial_condition` (values of the numpy array, flattened) and its
`state_index`. -/
structure StateRec where
  signal : AbstractSignal
  initial_condition : List ℚ
  state_index : Nat
  deriving DecidableEq

def StateRec.size (st : StateRec) : Nat :=
  st.signal.size

/-- Property `State.state_slice`:
`slice(self.state_index, self.state_index + self.size)`. -/
def StateRec.state_slice (st : StateRec) : Finset Nat :=
  Finset.Ico st.state_index (st.state_index + st.size)

/-- `State.__init__` from `modypy/model/states.py`: store the initial
condition (`np.zeros(self.shape)` when omitted — all zeros, `size` many
scalar elements — else `np.asarray(initial_condition)`, which preserves
the given values), obtain `state_index` from
`owner.system.allocate_state_lines(self.size)`, and append the state to
`system.states`. -/
def mkState (sys : SysModel) (shape : List Nat) (initial_condition : Option (List ℚ)) :
    StateRec × SysModel :=
  let signal : AbstractSignal := { shape := shape }
  let ic :=
    match initial_condition with
    | none => List.replicate signal.size 0
    | some v => v
  let alloc := sys.allocate_state_lines signal.size
  let st : StateRec := { signal := signal, initial_condition := ic, state_index := alloc.1 }
  (st, { alloc.2 with states := alloc.2.states ++ [(signal, ic, alloc.1)] })

/-- Construction of a whole model: states are created one after the
other, each against the system built so far. -/
def buildSystem (specs : List (List Nat × Option (List ℚ))) : SysModel :=
  specs.foldl (fun sys p => (mkState sys p.1 p.2).2) { num_states := 0, states := [] }

/-- The `StateRec` view of an entry of `SysModel.states`. -/
def entryRec (e : AbstractSignal × List ℚ × Nat) : StateRec :=
  { signal := e.1, initial_condition := e.2.1, state_index := e.2.2 }

/-- One sample handed to `SimulationResult.append`. -/
structure Sample where
  time : ℚ
  state : List ℚ
  output : List ℚ
  event : Option Nat

/-- The event-indicator row recorded for a sample: all `false`, except a
single `true` flag when an event index is given. -/
def eventRow (n : Nat) (event : Option Nat) : List Bool :=
  match event with
  | none => List.replicate n false
  | some e => (List.replicate n false).set e true

/-- A sequence of `append` calls. -/
def appendAll (junk : ℚ) (r : SimulationResult) : List Sample → SimulationResult
  | [] => r
  | s :: rest => appendAll junk (r.append junk s.time s.state s.output s.event) rest

/-! ### Concrete instances used to exercise the development -/

/-- A tiny system with two identical event functions crossing zero at
`t = 0` (their value is the time itself, so no rational arithmetic is
needed to evaluate them). -/
def sysW2 : System where
  num_states := 1
  num_outputs := 1
  num_events := 2
  initial_condition := [0]
  output_function := fun _ _ => [0]
  state_update_function := fun _ _ _ => [0]
  event_function := fun t _ _ => [t, t]
  update_state_function := fun _ s _ => s

/-- A tiny system with one event function of constant sign. -/
def sysW1 : System where
  num_states := 1
  num_outputs := 1
  num_events := 1
  initial_condition := [0]
  output_function := fun _ _ => [0]
  state_update_function := fun _ _ _ => [0]
  event_function := fun _ _ _ => [1]
  update_state_function := fun _ s _ => s

/-- A toy integrator whose state is just the current time: each step
jumps to `t = 1` and always succeeds. -/
def solverW : OdeSolver ℚ where
  init := fun _ _ t0 _ _ => t0
  t := fun s => s
  y := fun s => [s]
  status := fun _ => "running"
  step := fun _ => (none, 1)
  dense_output := fun _ => fun u => [u]

/-- A toy integrator whose step always fails. -/
def solverF : OdeSolver ℚ where
  init := fun _ _ t0 _ _ => t0
  t := fun s => s
  y := fun s => [s]
  status := fun _ => "running"
  step := fun s => (some "step failure", s)
  dense_output := fun _ => fun _ => [0]

/-- A toy bracketing root finder: the left interval end. -/
def bqW : (ℚ → ℚ) → ℚ → ℚ → ℚ := fun _ a _ => a

/-- A simulator over `sysW2`, about to step from `t = 0` to `t = 1`. -/
def simW : Simulator ℚ where
  system := sysW2
  tbound := 10
  result := SimulationResult.init sysW2 0
  integrator_constructor := solverW
  integrator_options := []
  rootfinder_constructor := fun _ a _ => a
  rootfinder_options := { xtol := 1/100, maxiter := 100 }
  integrator := 0

/-- A simulator over `sysW1` whose event function never changes sign. -/
def simW6 : Simulator ℚ where
  system := sysW1
  tbound := 10
  result := SimulationResult.init sysW1 0
  integrator_constructor := solverW
  integrator_options := []
  rootfinder_constructor := fun _ a _ => a
  rootfinder_options := { xtol := 1/100, maxiter := 100 }
  integrator := 0

/-- A simulator whose integrator fails at the first step. -/
def simF : Simulator ℚ where
  system := sysW1
  tbound := 10
  result := SimulationResult.init sysW1 0
  integrator_constructor := solverF
  integrator_options := []
  rootfinder_constructor := fun _ a _ => a
  rootfinder_options := { xtol := 1/100, maxiter := 100 }
  integrator := 0

/-- Model specs for a three-state system: shapes `[2]`, scalar, `[3]`. -/
def specsW : List (List Nat × Option (List ℚ)) :=
  [([2], none), ([], some [5]), ([3], none)]

/-! ### List helper lemmas -/

theorem take_succ_set {α : Type} (l : List α) (i : Nat) (a : α) (h : i < l.length) :
    (l.set i a).take (i + 1) = l.take i ++ [a] := by
  induction l generalizing i with
  | nil => simp at h
  | cons x xs ih =>
    cases i with
    | zero => simp
    | succ n =>
      simp only [List.set_cons_succ, List.take_succ_cons, List.cons_append]
      rw [ih n (by simpa using h)]

theorem getD_of_take_succ {α : Type} (l : List α) (i : Nat) (d : α) (h : i < l.length) :
    l.take (i + 1) = l.take i ++ [l.getD i d] := by
  induction l generalizing i with
  | nil => simp at h
  | cons x xs ih =>
    cases i with
    | zero => simp
    | succ n =>
      simp only [List.take_succ_cons, List.cons_append]
      rw [ih n (by simpa using h)]
      simp

theorem getD_set_ne {α : Type} (l : List α) (i j : Nat) (a d : α) (h : i ≠ j) :
    (l.set i a).getD j d = l.getD j d := by
  induction l generalizing i j with
  | nil => simp
  | cons x xs ih =>
    cases i with
    | zero =>
      cases j with
      | zero => exact absurd rfl h
      | succ m => simp
    | succ n =>
      cases j with
      | zero => simp
      | succ m =>
        simp only [List.set_cons_succ, List.getD_cons_succ]
        exact ih n m (fun hnm => h (by rw [hnm]))

theorem getD_append_left {α : Type} (l l' : List α) (i : Nat) (d : α) (h : i < l.length) :
    (l ++ l').getD i d = l.getD i d := by
  induction l generalizing i with
  | nil => simp at h
  | cons x xs ih =>
    cases i with
    | zero => simp
    | succ n =>
      simp only [List.cons_append, List.getD_cons_succ]
      exact ih n (by simpa using h)

theorem getD_replicate_of_lt {α : Type} (n i : Nat) (a d : α) (h : i < n) :
    (List.replicate n a).getD i d = a := by
  induction n generalizing i with
  | zero => simp at h
  | succ m ih =>
    cases i with
    | zero => simp [List.replicate_succ]
    | succ k =>
      simp only [List.replicate_succ, List.getD_cons_succ]
      exact ih k (by omega)

/-! ### Result-store append lemmas -/

theorem extend_space_system (junk : ℚ) (r : SimulationResult) :
    (r.extend_space junk).system = r.system := rfl

theorem extend_space_current_idx (junk : ℚ) (r : SimulationResult) :
    (r.extend_space junk).current_idx = r.current_idx := rfl

theorem extend_space_wf (junk : ℚ) (r : SimulationResult) (h : r.wf) :
    (r.extend_space junk).wf := by
  obtain ⟨h1, h2, h3, h4, h5⟩ := h
  refine ⟨?_, ?_, ?_, ?_, ?_⟩ <;>
    simp only [SimulationResult.extend_space, List.length_append, List.length_replicate]
  · omega
  · omega
  · omega
  · omega
  · intro i hi hidx
    by_cases hlt : i < r._events.length
    · rw [getD_append_left _ _ _ _ hlt]
      exact h5 i (by omega) hidx
    · rw [List.getD_eq_getElem?_getD, List.getElem?_append_right (by omega),
        ← List.getD_eq_getElem?_getD]
      exact getD_replicate_of_lt _ _ _ _ (by omega)

/-- The state of the buffers after the conditional `extend_space` at the
head of `append`: the row at `current_idx` is writable. -/
theorem append_room (junk : ℚ) (r : SimulationResult) (h : r.wf) :
    (if r._t.length ≤ r.current_idx then r.extend_space junk else r).wf ∧
    r.current_idx <
      (if r._t.length ≤ r.current_idx then r.extend_space junk else r)._t.length ∧
    (if r._t.length ≤ r.current_idx then r.extend_space junk else r).current_idx =
      r.current_idx ∧
    (if r._t.length ≤ r.current_idx then r.extend_space junk else r).system = r.system ∧
    (if r._t.length ≤ r.current_idx then r.extend_space junk else r).t = r.t ∧
    (if r._t.length ≤ r.current_idx then r.extend_space junk else r).state = r.state ∧
    (if r._t.length ≤ r.current_idx then r.extend_space junk else r).output = r.output ∧
    (if r._t.length ≤ r.current_idx then r.extend_space junk else r).events = r.events := by
  obtain ⟨h1, h2, h3, h4, h5⟩ := h
  by_cases hc : r._t.length ≤ r.current_idx
  · have hEq : r.current_idx = r._t.length := le_antisymm h4 hc
    simp only [if_pos hc]
    refine ⟨extend_space_wf junk r ⟨h1, h2, h3, h4, h5⟩, ?_, rfl, rfl, ?_, ?_, ?_, ?_⟩ <;>
      simp only [SimulationResult.extend_space, SimulationResult.t, SimulationResult.state,
        SimulationResult.output, SimulationResult.events, List.length_append,
        List.length_replicate, RESULT_SIZE_EXTENSION]
    · omega
    · exact List.take_append_of_le_length h4
    · exact List.take_append_of_le_length (h1 ▸ h4)
    · exact List.take_append_of_le_length (h2 ▸ h4)
    · exact List.take_append_of_le_length (h3 ▸ h4)
  · rw [if_neg hc]
    exact ⟨⟨h1, h2, h3, h4, h5⟩, by omega, rfl, rfl, rfl, rfl, rfl, rfl⟩

/-- What writing one row at `current_idx` does to a well-formed store. -/
theorem write_row_spec (r r2 : SimulationResult) (t : ℚ) (state output : List ℚ)
    (event : Option Nat) (h : r.wf) (hlt : r.current_idx < r._t.length)
    (hr2 : r2 = { r with
      _t := r._t.set r.current_idx t
      _state := r._state.set r.current_idx state
      _output := r._output.set r.current_idx output
      _events :=
        match event with
        | none => r._events
        | some e => r._events.set r.current_idx ((r._events.getD r.current_idx []).set e true)
      current_idx := r.current_idx + 1 }) :
    r2.wf ∧ r2.current_idx = r.current_idx + 1 ∧ r2.system = r.system ∧
    r2.t = r.t ++ [t] ∧ r2.state = r.state ++ [state] ∧
    r2.output = r.output ++ [output] ∧
    r2.events = r.events ++
      [match event with
       | none => List.replicate r.system.num_events false
       | some e => (List.replicate r.system.num_events false).set e true] := by
  obtain ⟨h1, h2, h3, h4, h5⟩ := h
  subst hr2
  have hrow : r._events.getD r.current_idx [] =
      List.replicate r.system.num_events false :=
    h5 r.current_idx hlt (le_refl _)
  refine ⟨⟨?_, ?_, ?_, ?_, ?_⟩, rfl, rfl, ?_, ?_, ?_, ?_⟩
  · simp [h1]
  · simp [h2]
  · cases event <;> simp [h3]
  · show r.current_idx + 1 ≤ (r._t.set r.current_idx t).length
    simp only [List.length_set]
    omega
  · intro i hi hidx
    have hi2 : i < (r._t.set r.current_idx t).length := hi
    have hidx2 : r.current_idx + 1 ≤ i := hidx
    simp only [List.length_set] at hi2
    cases event with
    | none => exact h5 i hi2 (by omega)
    | some e =>
      show (r._events.set r.current_idx _).getD i [] = _
      rw [getD_set_ne _ _ _ _ _ (by omega)]
      exact h5 i hi2 (by omega)
  · simp only [SimulationResult.t]
    exact take_succ_set _ _ _ hlt
  · simp only [SimulationResult.state]
    exact take_succ_set _ _ _ (h1 ▸ hlt)
  · simp only [SimulationResult.output]
    exact take_succ_set _ _ _ (h2 ▸ hlt)
  · cases event with
    | none =>
      simp only [SimulationResult.events]
      rw [getD_of_take_succ r._events r.current_idx [] (h3 ▸ hlt), hrow]
    | some e =>
      simp only [SimulationResult.events]
      rw [take_succ_set _ _ _ (h3 ▸ hlt), hrow]

/-- `append` seen through the accessors: it extends the four logical
time series by exactly the given row and preserves well-formedness. -/
theorem append_spec (junk : ℚ) (r : SimulationResult) (t : ℚ)
    (state output : List ℚ) (event : Option Nat) (h : r.wf) :
    (r.append junk t state output event).wf ∧
    (r.append junk t state output event).current_idx = r.current_idx + 1 ∧
    (r.append junk t state output event).system = r.system ∧
    (r.append junk t state output event).t = r.t ++ [t] ∧
    (r.append junk t state output event).state = r.state ++ [state] ∧
    (r.append junk t state output event).output = r.output ++ [output] ∧
    (r.append junk t state output event).events = r.events ++
      [match event with
       | none => List.replicate r.system.num_events false
       | some e => (List.replicate r.system.num_events false).set e true] := by
  obtain ⟨hwf', hlt, hidx, hsys, hts, hss, hos, hes⟩ := append_room junk r h
  have hcore := write_row_spec
    (if r._t.length ≤ r.current_idx then r.extend_space junk else r)
    (r.append junk t state output event) t state output event hwf' (by omega) (by
      simp only [SimulationResult.append, hidx])
  obtain ⟨c1, c2, c3, c4, c5, c6, c7⟩ := hcore
  refine ⟨c1, by omega, by rw [c3, hsys], ?_, ?_, ?_, ?_⟩
  · rw [c4, hts]
  · rw [c5, hss]
  · rw [c6, hos]
  · rw [c7, hes, hsys]


theorem init_wf (system : System) (junk : ℚ) : (SimulationResult.init system junk).wf := by
  refine ⟨by simp [SimulationResult.init], by simp [SimulationResult.init],
    by simp [SimulationResult.init], by simp [SimulationResult.init], ?_⟩
  intro i hi _
  simp only [SimulationResult.init] at hi ⊢
  simp only [List.length_replicate] at hi
  exact getD_replicate_of_lt _ _ _ _ hi

/-- Any sequence of appends, seen through the accessors. -/
theorem appendAll_spec (junk : ℚ) (samples : List Sample) (r : SimulationResult)
    (h : r.wf) :
    (appendAll junk r samples).wf ∧
    (appendAll junk r samples).current_idx = r.current_idx + samples.length ∧
    (appendAll junk r samples).system = r.system ∧
    (appendAll junk r samples).t = r.t ++ samples.map Sample.time ∧
    (appendAll junk r samples).state = r.state ++ samples.map Sample.state ∧
    (appendAll junk r samples).output = r.output ++ samples.map Sample.output ∧
    (appendAll junk r samples).events = r.events ++
      samples.map (fun s => eventRow r.system.num_events s.event) := by
  induction samples generalizing r with
  | nil => simp [appendAll, h]
  | cons s rest ih =>
    obtain ⟨a1, a2, a3, a4, a5, a6, a7⟩ :=
      append_spec junk r s.time s.state s.output s.event h
    obtain ⟨b1, b2, b3, b4, b5, b6, b7⟩ :=
      ih (r.append junk s.time s.state s.output s.event) a1
    have hrow : (match s.event with
        | none => List.replicate r.system.num_events false
        | some e => (List.replicate r.system.num_events false).set e true) =
        eventRow r.system.num_events s.event := by
      cases s.event <;> rfl
    refine ⟨b1, ?_, ?_, ?_, ?_, ?_, ?_⟩
    · show (appendAll junk (r.append junk s.time s.state s.output s.event) rest).current_idx = _
      rw [b2, a2, List.length_cons]
      omega
    · show (appendAll junk (r.append junk s.time s.state s.output s.event) rest).system = _
      rw [b3, a3]
    · show (appendAll junk (r.append junk s.time s.state s.output s.event) rest).t = _
      rw [b4, a4, List.map_cons, List.append_assoc, List.singleton_append]
    · show (appendAll junk (r.append junk s.time s.state s.output s.event) rest).state = _
      rw [b5, a5, List.map_cons, List.append_assoc, List.singleton_append]
    · show (appendAll junk (r.append junk s.time s.state s.output s.event) rest).output = _
      rw [b6, a6, List.map_cons, List.append_assoc, List.singleton_append]
    · show (appendAll junk (r.append junk s.time s.state s.output s.event) rest).events = _
      rw [b7, a3, a7, hrow, List.map_cons, List.append_assoc, List.singleton_append]

/-- The capacity rule of a single `append`: the backing storage is
extended by exactly `RESULT_SIZE_EXTENSION` rows precisely when the
append would exceed the current capacity. -/
theorem append_capacity (junk : ℚ) (r : SimulationResult) (t : ℚ)
    (state output : List ℚ) (event : Option Nat) :
    (r.append junk t state output event)._t.length =
      if r._t.length ≤ r.current_idx then r._t.length + RESULT_SIZE_EXTENSION
      else r._t.length := by
  by_cases hc : r._t.length ≤ r.current_idx <;>
    simp [SimulationResult.append, SimulationResult.extend_space, hc]

/-! ### Case analysis of `Simulator.step` -/

theorem step_fail_case {σ : Type} (bq : (ℚ → ℚ) → ℚ → ℚ → ℚ) (junk : ℚ)
    (sim : Simulator σ) (msg : String) (i' : σ)
    (hds : sim.integrator_constructor.step sim.integrator = (some msg, i')) :
    sim.step bq junk = some (some msg, { sim with integrator := i' }) := by
  unfold Simulator.step
  rw [hds]

theorem step_noevent_case {σ : Type} (bq : (ℚ → ℚ) → ℚ → ℚ → ℚ) (junk : ℚ)
    (sim : Simulator σ) (i' : σ)
    (hds : sim.integrator_constructor.step sim.integrator = (none, i'))
    (hno : eventsOccurred sim.system.num_events sim.event_values
      ({ sim with integrator := i' } : Simulator σ).event_values = []) :
    sim.step bq junk = some (none,
      { sim with
        integrator := i'
        result := sim.result.append junk (sim.integrator_constructor.t i')
          (sim.integrator_constructor.y i')
          (sim.system.output_function (sim.integrator_constructor.t i')
            (sim.integrator_constructor.y i')) none }) := by
  unfold Simulator.step
  rw [hds]
  simp only [hno, List.length_nil, Nat.lt_irrefl, if_false]
  rfl

theorem step_event_case {σ : Type} (bq : (ℚ → ℚ) → ℚ → ℚ → ℚ) (junk : ℚ)
    (sim : Simulator σ) (i' : σ) (tcross rest : List (Nat × ℚ)) (e : Nat) (t : ℚ)
    (hds : sim.integrator_constructor.step sim.integrator = (none, i'))
    (hpos : 0 < (eventsOccurred sim.system.num_events sim.event_values
      ({ sim with integrator := i' } : Simulator σ).event_values).length)
    (hcc : computeCrossings bq
      (eventInterpolator sim.system (sim.integrator_constructor.dense_output i'))
      (sim.integrator_constructor.t sim.integrator) (sim.integrator_constructor.t i')
      (eventsOccurred sim.system.num_events sim.event_values
        ({ sim with integrator := i' } : Simulator σ).event_values) = some tcross)
    (hsort : tcross.mergeSort crossLE = (e, t) :: rest) :
    sim.step bq junk = some (none,
      { sim with
        integrator := sim.integrator_constructor.init sim.integrator_options
          sim.state_derivative_function (t + sim.rootfinder_options.xtol / 2)
          (sim.system.update_state_function (t + sim.rootfinder_options.xtol / 2)
            (sim.integrator_constructor.dense_output i'
              (t + sim.rootfinder_options.xtol / 2))
            (sim.system.output_function (t + sim.rootfinder_options.xtol / 2)
              (sim.integrator_constructor.dense_output i'
                (t + sim.rootfinder_options.xtol / 2))))
          sim.tbound
        result := sim.result.append junk t
          (sim.integrator_constructor.dense_output i' t)
          (sim.system.output_function t (sim.integrator_constructor.dense_output i' t))
          (some e) }) := by
  unfold Simulator.step
  rw [hds]
  simp only [if_pos hpos]
  rw [hcc]
  dsimp only
  rw [hsort]

theorem step_assert_fail_case {σ : Type} (bq : (ℚ → ℚ) → ℚ → ℚ → ℚ) (junk : ℚ)
    (sim : Simulator σ) (i' : σ)
    (hds : sim.integrator_constructor.step sim.integrator = (none, i'))
    (hpos : 0 < (eventsOccurred sim.system.num_events sim.event_values
      ({ sim with integrator := i' } : Simulator σ).event_values).length)
    (hcc : computeCrossings bq
      (eventInterpolator sim.system (sim.integrator_constructor.dense_output i'))
      (sim.integrator_constructor.t sim.integrator) (sim.integrator_constructor.t i')
      (eventsOccurred sim.system.num_events sim.event_values
        ({ sim with integrator := i' } : Simulator σ).event_values) = none) :
    sim.step bq junk = none := by
  unfold Simulator.step
  rw [hds]
  simp only [if_pos hpos]
  rw [hcc]

theorem step_sort_nil_case {σ : Type} (bq : (ℚ → ℚ) → ℚ → ℚ → ℚ) (junk : ℚ)
    (sim : Simulator σ) (i' : σ) (tcross : List (Nat × ℚ))
    (hds : sim.integrator_constructor.step sim.integrator = (none, i'))
    (hpos : 0 < (eventsOccurred sim.system.num_events sim.event_values
      ({ sim with integrator := i' } : Simulator σ).event_values).length)
    (hcc : computeCrossings bq
      (eventInterpolator sim.system (sim.integrator_constructor.dense_output i'))
      (sim.integrator_constructor.t sim.integrator) (sim.integrator_constructor.t i')
      (eventsOccurred sim.system.num_events sim.event_values
        ({ sim with integrator := i' } : Simulator σ).event_values) = some tcross)
    (hms : tcross.mergeSort crossLE = []) :
    sim.step bq junk = none := by
  unfold Simulator.step
  rw [hds]
  simp only [if_pos hpos]
  rw [hcc]
  dsimp only
  rw [hms]

/-! ### Properties of the crossing list and its stable sort -/

theorem crossLE_trans (a b c : Nat × ℚ) (hab : crossLE a b) (hbc : crossLE b c) :
    crossLE a c := by
  simp only [crossLE, decide_eq_true_eq] at hab hbc ⊢
  exact le_trans hab hbc

theorem crossLE_total (a b : Nat × ℚ) : crossLE a b || crossLE b a := by
  simp only [crossLE]
  rcases le_total a.2 b.2 with h | h <;> simp [h]

/-- The head of the stably sorted crossing list has the smallest
crossing time. -/
theorem mergeSort_head_min (l rest : List (Nat × ℚ)) (p : Nat × ℚ)
    (hs : l.mergeSort crossLE = p :: rest) (q : Nat × ℚ) (hq : q ∈ l) :
    p.2 ≤ q.2 := by
  have hsorted := List.sorted_mergeSort crossLE_trans crossLE_total l
  rw [hs] at hsorted
  have hq2 : q ∈ l.mergeSort crossLE := List.mem_mergeSort.mpr hq
  rw [hs] at hq2
  rcases List.mem_cons.mp hq2 with h | h
  · rw [h]
  · have := (List.pairwise_cons.mp hsorted).1 q h
    simpa [crossLE] using this

/-- In a list whose first components are strictly increasing, a pair of
elements with increasing first components is a sublist. -/
theorem pair_sublist_of_pairwise_lt (l : List (Nat × ℚ)) (p q : Nat × ℚ)
    (hl : l.Pairwise (fun a b => a.1 < b.1)) (hp : p ∈ l) (hq : q ∈ l)
    (hpq : p.1 < q.1) : List.Sublist [p, q] l := by
  induction l with
  | nil => cases hp
  | cons x xs ih =>
    obtain ⟨hx, hxs⟩ := List.pairwise_cons.mp hl
    rcases List.mem_cons.mp hp with hpx | hpxs
    · subst hpx
      have hqxs : q ∈ xs := by
        rcases List.mem_cons.mp hq with hqx | hqxs
        · exact absurd (hqx ▸ hpq) (lt_irrefl _)
        · exact hqxs
      exact (List.singleton_sublist.mpr hqxs).cons₂ p
    · have hqxs : q ∈ xs := by
        rcases List.mem_cons.mp hq with hqx | hq2
        · exact absurd (hx p hpxs) (by rw [hqx] at hpq; omega)
        · exact hq2
      exact (ih hxs hpxs hqxs).cons x

/-- Ties in crossing time are broken towards the smaller event index:
Python's `sort` is stable and the candidate list is produced in
ascending index order. -/
theorem mergeSort_head_tie (l rest : List (Nat × ℚ)) (p : Nat × ℚ)
    (hl : l.Pairwise (fun a b => a.1 < b.1))
    (hs : l.mergeSort crossLE = p :: rest) (q : Nat × ℚ) (hq : q ∈ l)
    (htie : q.2 = p.2) : p.1 ≤ q.1 := by
  by_contra hqp
  push_neg at hqp
  have hsub : List.Sublist [q, p] l := pair_sublist_of_pairwise_lt l q p hl hq (by
      have : p ∈ l.mergeSort crossLE := by rw [hs]; exact List.mem_cons_self _ _
      exact List.mem_mergeSort.mp this) hqp
  have hle : crossLE q p := by simp [crossLE, htie]
  have hpair : List.Sublist [q, p] (l.mergeSort crossLE) :=
    List.pair_sublist_mergeSort crossLE_trans crossLE_total hle hsub
  rw [hs] at hpair
  have hnd : (p :: rest).Nodup := by
    have hndl : l.Nodup := (hl.imp (fun hab => by
      intro hEq
      rw [hEq] at hab
      exact lt_irrefl _ hab))
    rw [← hs]
    exact ((List.mergeSort_perm l crossLE).nodup_iff).mpr hndl
  have hqp_ne : q ≠ p := by
    intro hEq
    rw [hEq] at hqp
    exact lt_irrefl _ hqp
  have hp_rest : p ∈ rest := by
    cases hpair with
    | cons₂ h =>
      exact absurd rfl hqp_ne
    | cons _ h =>
      exact h.subset (by simp)
  exact absurd hp_rest (List.nodup_cons.mp hnd).1

/-- A successful root-finding loop returns exactly the candidate
indices, in order, paired with the root found by the (hard-coded)
`brentq` call, and every crossing time passed the
`assert last_t <= tc <= self.t` bound check. -/
theorem computeCrossings_spec (bq : (ℚ → ℚ) → ℚ → ℚ → ℚ) (g : ℚ → List ℚ)
    (a b : ℚ) (idxs : List Nat) (l : List (Nat × ℚ))
    (h : computeCrossings bq g a b idxs = some l) :
    l = idxs.map (fun i => (i, bq (fun t => (g t).getD i 0) a b)) ∧
    ∀ p ∈ l, a ≤ p.2 ∧ p.2 ≤ b := by
  induction idxs generalizing l with
  | nil =>
    simp only [computeCrossings] at h
    cases h
    simp
  | cons i restIdx ih =>
    simp only [computeCrossings] at h
    split at h
    · rename_i hbound
      cases hrec : computeCrossings bq g a b restIdx with
      | none => rw [hrec] at h; cases h
      | some l' =>
        rw [hrec] at h
        cases h
        obtain ⟨ih1, ih2⟩ := ih l' hrec
        constructor
        · rw [List.map_cons, ih1]
        · intro p hp
          rcases List.mem_cons.mp hp with hpi | hpl
          · subst hpi
            exact hbound
          · exact ih2 p hpl
    · cases h

/-- The candidate list is in strictly ascending index order
(`np.flatnonzero` over the sign-change mask). -/
theorem eventsOccurred_pairwise (n : Nat) (old new : List ℚ) :
    (eventsOccurred n old new).Pairwise (· < ·) :=
  (List.pairwise_lt_range n).sublist (List.filter_sublist _)

theorem eventsOccurred_mem_lt (n : Nat) (old new : List ℚ) (i : Nat)
    (hi : i ∈ eventsOccurred n old new) : i < n := by
  have := (List.filter_sublist _).subset hi
  exact List.mem_range.mp this

/-! ### State allocation invariants -/

/-- Non-overlapping index blocks have disjoint slices. -/
theorem slice_disjoint (a b : StateRec)
    (h : a.state_index + a.size ≤ b.state_index) :
    Disjoint a.state_slice b.state_slice := by
  rw [Finset.disjoint_left]
  intro x hxa hxb
  simp only [StateRec.state_slice, Finset.mem_Ico] at hxa hxb
  omega

/-- Unfolding `mkState`: the new state is appended at the end, with the
index handed out by `allocate_state_lines` (the current allocation
mark), and the mark advances by the state's size. -/
theorem mkState_states (sys : SysModel) (shape : List Nat) (ic : Option (List ℚ)) :
    (mkState sys shape ic).2.states = sys.states ++
      [((mkState sys shape ic).1.signal, (mkState sys shape ic).1.initial_condition,
        (mkState sys shape ic).1.state_index)] := rfl

theorem mkState_state_index (sys : SysModel) (shape : List Nat) (ic : Option (List ℚ)) :
    (mkState sys shape ic).1.state_index = (sys.allocate_state_lines
      ({ shape := shape } : AbstractSignal).size).1 := rfl

theorem mkState_num_states (sys : SysModel) (shape : List Nat) (ic : Option (List ℚ)) :
    (mkState sys shape ic).2.num_states =
      sys.num_states + ({ shape := shape } : AbstractSignal).size := rfl

theorem mkState_size (sys : SysModel) (shape : List Nat) (ic : Option (List ℚ)) :
    (mkState sys shape ic).1.size = ({ shape := shape } : AbstractSignal).size := rfl

theorem entryRec_triple (s : AbstractSignal) (v : List ℚ) (i : Nat) :
    entryRec (s, v, i) = { signal := s, initial_condition := v, state_index := i } := rfl

/-- Folding state creation only ever appends to the list of states. -/
theorem foldl_states_extend (extra : List (List Nat × Option (List ℚ))) (sys : SysModel) :
    ∃ tail, (extra.foldl (fun s p => (mkState s p.1 p.2).2) sys).states =
      sys.states ++ tail := by
  induction extra generalizing sys with
  | nil => exact ⟨[], by simp⟩
  | cons p rest ih =>
    obtain ⟨tail, htail⟩ := ih (mkState sys p.1 p.2).2
    refine ⟨[((mkState sys p.1 p.2).1.signal, (mkState sys p.1 p.2).1.initial_condition,
      (mkState sys p.1 p.2).1.state_index)] ++ tail, ?_⟩
    simp only [List.foldl_cons, htail, mkState_states]
    simp

/-- Every allocated state block lies below the allocation mark, and
blocks are allocated in increasing, non-overlapping positions. -/
theorem buildSystem_blocks (specs : List (List Nat × Option (List ℚ))) (sys : SysModel)
    (h1 : ∀ e ∈ sys.states, (entryRec e).state_index + (entryRec e).size ≤ sys.num_states)
    (h2 : sys.states.Pairwise (fun a b =>
      (entryRec a).state_index + (entryRec a).size ≤ (entryRec b).state_index)) :
    (∀ e ∈ (specs.foldl (fun s p => (mkState s p.1 p.2).2) sys).states,
      (entryRec e).state_index + (entryRec e).size ≤
        (specs.foldl (fun s p => (mkState s p.1 p.2).2) sys).num_states) ∧
    (specs.foldl (fun s p => (mkState s p.1 p.2).2) sys).states.Pairwise (fun a b =>
      (entryRec a).state_index + (entryRec a).size ≤ (entryRec b).state_index) := by
  induction specs generalizing sys with
  | nil => exact ⟨h1, h2⟩
  | cons p rest ih =>
    simp only [List.foldl_cons]
    apply ih
    · intro e he
      rw [mkState_states] at he
      rw [mkState_num_states]
      rcases List.mem_append.mp he with hold | hnew
      · have := h1 e hold
        omega
      · have heq : e = ((mkState sys p.1 p.2).1.signal,
            (mkState sys p.1 p.2).1.initial_condition,
            (mkState sys p.1 p.2).1.state_index) := by simpa using hnew
        subst heq
        rw [entryRec_triple]
        show (mkState sys p.1 p.2).1.state_index + (mkState sys p.1 p.2).1.size ≤
          sys.num_states + ({ shape := p.1 } : AbstractSignal).size
        have hidx : (mkState sys p.1 p.2).1.state_index = sys.num_states := rfl
        rw [mkState_size, hidx]
    · rw [mkState_states]
      apply List.pairwise_append.mpr
      refine ⟨h2, List.pairwise_singleton _ _, ?_⟩
      intro a ha b hb
      have hbval : b = ((mkState sys p.1 p.2).1.signal,
          (mkState sys p.1 p.2).1.initial_condition,
          (mkState sys p.1 p.2).1.state_index) := by simpa using hb
      subst hbval
      rw [entryRec_triple]
      show (entryRec a).state_index + (entryRec a).size ≤
        (mkState sys p.1 p.2).1.state_index
      have hidx : (mkState sys p.1 p.2).1.state_index = sys.num_states := rfl
      rw [hidx]
      exact h1 a ha

/-! ### The claims -/

/-- C3: when the integrator's step reports failure, `Simulator.step`
returns the integrator's message verbatim (no exception), and the
Result Store is untouched: no sample is appended and every previously
recorded sample is preserved. -/
theorem spec_C3 {σ : Type} (bq : (ℚ → ℚ) → ℚ → ℚ → ℚ) (junk : ℚ)
    (sim : Simulator σ) (msg : String) (i' : σ)
    (hds : sim.integrator_constructor.step sim.integrator = (some msg, i')) :
    sim.step bq junk = some (some msg, { sim with integrator := i' }) ∧
    ({ sim with integrator := i' } : Simulator σ).result = sim.result :=
  ⟨step_fail_case bq junk sim msg i' hds, rfl⟩

/-- Witness for C3 at a concrete failing integrator. -/
theorem spec_C3_witness :
    simF.integrator_constructor.step simF.integrator = (some "step failure", 0) ∧
    (simF.step bqW 0 = some (some "step failure", { simF with integrator := 0 }) ∧
      ({ simF with integrator := 0 } : Simulator ℚ).result = simF.result) :=
  ⟨rfl, spec_C3 bqW 0 simF "step failure" 0 rfl⟩

/-- C6: when no event function changes sign across a successful step,
`Simulator.step` appends exactly one sample `(t, x, outputs)` with an
all-`false` event-indicator row, and returns `None`. -/
theorem spec_C6 {σ : Type} (bq : (ℚ → ℚ) → ℚ → ℚ → ℚ) (junk : ℚ)
    (sim : Simulator σ) (i' : σ)
    (hwf : sim.result.wf)
    (hds : sim.integrator_constructor.step sim.integrator = (none, i'))
    (hno : eventsOccurred sim.system.num_events sim.event_values
      ({ sim with integrator := i' } : Simulator σ).event_values = []) :
    ∃ sim1 : Simulator σ, sim.step bq junk = some (none, sim1) ∧
      sim1.result.t = sim.result.t ++ [sim.integrator_constructor.t i'] ∧
      sim1.result.state = sim.result.state ++ [sim.integrator_constructor.y i'] ∧
      sim1.result.output = sim.result.output ++
        [sim.system.output_function (sim.integrator_constructor.t i')
          (sim.integrator_constructor.y i')] ∧
      sim1.result.events = sim.result.events ++
        [List.replicate sim.result.system.num_events false] ∧
      sim1.result.current_idx = sim.result.current_idx + 1 := by
  have hstep := step_noevent_case bq junk sim i' hds hno
  obtain ⟨a1, a2, a3, a4, a5, a6, a7⟩ := append_spec junk sim.result
    (sim.integrator_constructor.t i') (sim.integrator_constructor.y i')
    (sim.system.output_function (sim.integrator_constructor.t i')
      (sim.integrator_constructor.y i')) none hwf
  exact ⟨_, hstep, a4, a5, a6, a7, a2⟩

/-- Witness for C6 at a concrete step with no sign change. -/
theorem spec_C6_witness :
    simW6.result.wf ∧
    simW6.integrator_constructor.step simW6.integrator = (none, 1) ∧
    eventsOccurred simW6.system.num_events simW6.event_values
      ({ simW6 with integrator := 1 } : Simulator ℚ).event_values = [] ∧
    (∃ sim1 : Simulator ℚ, simW6.step bqW 0 = some (none, sim1) ∧
      sim1.result.t = simW6.result.t ++ [simW6.integrator_constructor.t 1] ∧
      sim1.result.state = simW6.result.state ++ [simW6.integrator_constructor.y 1] ∧
      sim1.result.output = simW6.result.output ++
        [simW6.system.output_function (simW6.integrator_constructor.t 1)
          (simW6.integrator_constructor.y 1)] ∧
      sim1.result.events = simW6.result.events ++
        [List.replicate simW6.result.system.num_events false] ∧
      sim1.result.current_idx = simW6.result.current_idx + 1) :=
  ⟨by decide, by decide, by decide, spec_C6 bqW 0 simW6 1 (by decide) (by decide) (by decide)⟩

/-- C1: when at least two event functions change sign in one successful
step, exactly one event-tagged sample is recorded — the crossing with
the smallest root-found time, ties broken towards the smaller event
index — and the remaining crossings are not processed in this step. -/
theorem spec_C1 {σ : Type} (bq : (ℚ → ℚ) → ℚ → ℚ → ℚ) (junk : ℚ)
    (sim : Simulator σ) (i' : σ) (tcross : List (Nat × ℚ))
    (hwf : sim.result.wf)
    (hds : sim.integrator_constructor.step sim.integrator = (none, i'))
    (h2 : 2 ≤ (eventsOccurred sim.system.num_events sim.event_values
      ({ sim with integrator := i' } : Simulator σ).event_values).length)
    (hcc : computeCrossings bq
      (eventInterpolator sim.system (sim.integrator_constructor.dense_output i'))
      (sim.integrator_constructor.t sim.integrator) (sim.integrator_constructor.t i')
      (eventsOccurred sim.system.num_events sim.event_values
        ({ sim with integrator := i' } : Simulator σ).event_values) = some tcross) :
    ∃ (e : Nat) (tc : ℚ) (sim1 : Simulator σ),
      sim.step bq junk = some (none, sim1) ∧
      (e, tc) ∈ tcross ∧
      (∀ p ∈ tcross, tc ≤ p.2) ∧
      (∀ p ∈ tcross, p.2 = tc → e ≤ p.1) ∧
      e < sim.system.num_events ∧
      sim1.result.current_idx = sim.result.current_idx + 1 ∧
      sim1.result.t = sim.result.t ++ [tc] ∧
      sim1.result.events = sim.result.events ++
        [(List.replicate sim.result.system.num_events false).set e true] := by
  obtain ⟨hmap, hbounds⟩ := computeCrossings_spec _ _ _ _ _ _ hcc
  have hlen : tcross.length = (eventsOccurred sim.system.num_events sim.event_values
      ({ sim with integrator := i' } : Simulator σ).event_values).length := by
    rw [hmap, List.length_map]
  have hposS : 0 < (tcross.mergeSort crossLE).length := by
    rw [List.length_mergeSort]
    omega
  cases hms : tcross.mergeSort crossLE with
  | nil => rw [hms] at hposS; simp at hposS
  | cons p restS =>
    obtain ⟨e, tc⟩ := p
    have hstep := step_event_case bq junk sim i' tcross restS e tc hds (by omega) hcc hms
    have hmem : (e, tc) ∈ tcross := by
      have : (e, tc) ∈ tcross.mergeSort crossLE := by
        rw [hms]
        exact List.mem_cons_self _ _
      exact List.mem_mergeSort.mp this
    have hpw : tcross.Pairwise (fun a b => a.1 < b.1) := by
      rw [hmap]
      exact List.pairwise_map.mpr (eventsOccurred_pairwise _ _ _)
    have hidx : e ∈ eventsOccurred sim.system.num_events sim.event_values
        ({ sim with integrator := i' } : Simulator σ).event_values := by
      rw [hmap] at hmem
      obtain ⟨i, hi, hEq⟩ := List.mem_map.mp hmem
      cases hEq
      exact hi
    obtain ⟨a1, a2, a3, a4, a5, a6, a7⟩ := append_spec junk sim.result tc
      (sim.integrator_constructor.dense_output i' tc)
      (sim.system.output_function tc (sim.integrator_constructor.dense_output i' tc))
      (some e) hwf
    exact ⟨e, tc, _, hstep, hmem,
      fun p hp => mergeSort_head_min tcross restS (e, tc) hms p hp,
      fun p hp htie => mergeSort_head_tie tcross restS (e, tc) hpw hms p hp htie,
      eventsOccurred_mem_lt _ _ _ e hidx, a2, a4, a7⟩

/-- Witness for C1: two events cross in one step; the step records the
event with the smaller index (the tie-break at equal crossing times). -/
theorem spec_C1_witness :
    simW.result.wf ∧
    simW.integrator_constructor.step simW.integrator = (none, 1) ∧
    2 ≤ (eventsOccurred simW.system.num_events simW.event_values
      ({ simW with integrator := 1 } : Simulator ℚ).event_values).length ∧
    computeCrossings bqW
      (eventInterpolator simW.system (simW.integrator_constructor.dense_output 1))
      (simW.integrator_constructor.t simW.integrator) (simW.integrator_constructor.t 1)
      (eventsOccurred simW.system.num_events simW.event_values
        ({ simW with integrator := 1 } : Simulator ℚ).event_values) =
      some [(0, 0), (1, 0)] ∧
    (∃ (e : Nat) (tc : ℚ) (sim1 : Simulator ℚ),
      simW.step bqW 0 = some (none, sim1) ∧
      (e, tc) ∈ [((0 : Nat), (0 : ℚ)), (1, 0)] ∧
      (∀ p ∈ [((0 : Nat), (0 : ℚ)), (1, 0)], tc ≤ p.2) ∧
      (∀ p ∈ [((0 : Nat), (0 : ℚ)), (1, 0)], p.2 = tc → e ≤ p.1) ∧
      e < simW.system.num_events ∧
      sim1.result.current_idx = simW.result.current_idx + 1 ∧
      sim1.result.t = simW.result.t ++ [tc] ∧
      sim1.result.events = simW.result.events ++
        [(List.replicate simW.result.system.num_events false).set e true]) :=
  ⟨by decide, by decide, by decide, by decide,
    spec_C1 bqW 0 simW 1 [(0, 0), (1, 0)] (by decide) (by decide) (by decide) (by decide)⟩

/-- C5: after processing an event with crossing time `tc`, the
simulator advances to `tc + xtol/2` (`xtol` the configured root-finder
tolerance), evaluates the state there via the dense-output
interpolator, feeds `(next_t, interpolated state, outputs)` to the
state-update function whose return value becomes the new state, and
replaces the integrator by a fresh one built by the configured
constructor at `(next_t, new_state)` with the same `tbound` and the
same integrator options. -/
theorem spec_C5 {σ : Type} (bq : (ℚ → ℚ) → ℚ → ℚ → ℚ) (junk : ℚ)
    (sim : Simulator σ) (i' : σ) (tcross : List (Nat × ℚ))
    (hds : sim.integrator_constructor.step sim.integrator = (none, i'))
    (h1 : 0 < (eventsOccurred sim.system.num_events sim.event_values
      ({ sim with integrator := i' } : Simulator σ).event_values).length)
    (hcc : computeCrossings bq
      (eventInterpolator sim.system (sim.integrator_constructor.dense_output i'))
      (sim.integrator_constructor.t sim.integrator) (sim.integrator_constructor.t i')
      (eventsOccurred sim.system.num_events sim.event_values
        ({ sim with integrator := i' } : Simulator σ).event_values) = some tcross) :
    ∃ (e : Nat) (tc : ℚ) (sim1 : Simulator σ),
      sim.step bq junk = some (none, sim1) ∧
      (tcross.mergeSort crossLE).head? = some (e, tc) ∧
      sim1.result = sim.result.append junk tc
        (sim.integrator_constructor.dense_output i' tc)
        (sim.system.output_function tc (sim.integrator_constructor.dense_output i' tc))
        (some e) ∧
      sim1.integrator = sim.integrator_constructor.init sim.integrator_options
        sim.state_derivative_function (tc + sim.rootfinder_options.xtol / 2)
        (sim.system.update_state_function (tc + sim.rootfinder_options.xtol / 2)
          (sim.integrator_constructor.dense_output i'
            (tc + sim.rootfinder_options.xtol / 2))
          (sim.system.output_function (tc + sim.rootfinder_options.xtol / 2)
            (sim.integrator_constructor.dense_output i'
              (tc + sim.rootfinder_options.xtol / 2))))
        sim.tbound ∧
      sim1.tbound = sim.tbound ∧
      sim1.integrator_options = sim.integrator_options := by
  obtain ⟨hmap, hbounds⟩ := computeCrossings_spec _ _ _ _ _ _ hcc
  have hlen : tcross.length = (eventsOccurred sim.system.num_events sim.event_values
      ({ sim with integrator := i' } : Simulator σ).event_values).length := by
    rw [hmap, List.length_map]
  have hposS : 0 < (tcross.mergeSort crossLE).length := by
    rw [List.length_mergeSort]
    omega
  cases hms : tcross.mergeSort crossLE with
  | nil => rw [hms] at hposS; simp at hposS
  | cons p restS =>
    obtain ⟨e, tc⟩ := p
    have hstep := step_event_case bq junk sim i' tcross restS e tc hds h1 hcc hms
    exact ⟨e, tc, _, hstep, rfl, rfl, rfl, rfl, rfl⟩

/-- Witness for C5 at the concrete two-event world. -/
theorem spec_C5_witness :
    simW.integrator_constructor.step simW.integrator = (none, 1) ∧
    0 < (eventsOccurred simW.system.num_events simW.event_values
      ({ simW with integrator := 1 } : Simulator ℚ).event_values).length ∧
    computeCrossings bqW
      (eventInterpolator simW.system (simW.integrator_constructor.dense_output 1))
      (simW.integrator_constructor.t simW.integrator) (simW.integrator_constructor.t 1)
      (eventsOccurred simW.system.num_events simW.event_values
        ({ simW with integrator := 1 } : Simulator ℚ).event_values) =
      some [(0, 0), (1, 0)] ∧
    (∃ (e : Nat) (tc : ℚ) (sim1 : Simulator ℚ),
      simW.step bqW 0 = some (none, sim1) ∧
      (List.mergeSort [((0 : Nat), (0 : ℚ)), (1, 0)] crossLE).head? = some (e, tc) ∧
      sim1.result = simW.result.append 0 tc
        (simW.integrator_constructor.dense_output 1 tc)
        (simW.system.output_function tc (simW.integrator_constructor.dense_output 1 tc))
        (some e) ∧
      sim1.integrator = simW.integrator_constructor.init simW.integrator_options
        simW.state_derivative_function (tc + simW.rootfinder_options.xtol / 2)
        (simW.system.update_state_function (tc + simW.rootfinder_options.xtol / 2)
          (simW.integrator_constructor.dense_output 1
            (tc + simW.rootfinder_options.xtol / 2))
          (simW.system.output_function (tc + simW.rootfinder_options.xtol / 2)
            (simW.integrator_constructor.dense_output 1
              (tc + simW.rootfinder_options.xtol / 2))))
        simW.tbound ∧
      sim1.tbound = simW.tbound ∧
      sim1.integrator_options = simW.integrator_options) :=
  ⟨by decide, by decide, by decide,
    spec_C5 bqW 0 simW 1 [(0, 0), (1, 0)] (by decide) (by decide) (by decide)⟩

/-- C7: `Simulator.run` steps repeatedly while the integrator status is
`"running"`.  When it returns a message, that message came from the
first failing step, reached from the start state by a chain of
successful (message-free) steps through `running` states, and the
returned simulator is exactly the state after that failing step — no
further steps are executed.  When it returns `None`, the final state
was reached by such a chain and is no longer `running` (the boundary
was reached), with no step having failed. -/
theorem spec_C7 {σ : Type} (bq : (ℚ → ℚ) → ℚ → ℚ → ℚ) (junk : ℚ)
    (fuel : Nat) (sim : Simulator σ) :
    (∀ (msg : String) (sim1 : Simulator σ),
      Simulator.run bq junk fuel sim = some (some msg, sim1) →
      ∃ s : Simulator σ, RunReach bq junk sim s ∧ s.running = true ∧
        s.step bq junk = some (some msg, sim1)) ∧
    (∀ sim1 : Simulator σ,
      Simulator.run bq junk fuel sim = some (none, sim1) →
      RunReach bq junk sim sim1 ∧ sim1.running = false) := by
  induction fuel generalizing sim with
  | zero =>
    constructor
    · intro msg sim1 hrun
      simp only [Simulator.run] at hrun
      split at hrun
      · cases hrun
      · cases hrun
    · intro sim1 hrun
      simp only [Simulator.run] at hrun
      split at hrun
      · cases hrun
      · rename_i hr
        cases hrun
        exact ⟨RunReach.refl _, by simpa using hr⟩
  | succ n ih =>
    constructor
    · intro msg sim1 hrun
      simp only [Simulator.run] at hrun
      split at hrun
      · rename_i hr
        cases hstep : sim.step bq junk with
        | none => rw [hstep] at hrun; cases hrun
        | some p =>
          obtain ⟨pm, psim⟩ := p
          rw [hstep] at hrun
          cases pm with
          | some m =>
            cases hrun
            exact ⟨sim, RunReach.refl _, hr, hstep⟩
          | none =>
            obtain ⟨s, hs1, hs2, hs3⟩ := (ih psim).1 msg sim1 hrun
            exact ⟨s, RunReach.head hr hstep hs1, hs2, hs3⟩
      · cases hrun
    · intro sim1 hrun
      simp only [Simulator.run] at hrun
      split at hrun
      · rename_i hr
        cases hstep : sim.step bq junk with
        | none => rw [hstep] at hrun; cases hrun
        | some p =>
          obtain ⟨pm, psim⟩ := p
          rw [hstep] at hrun
          cases pm with
          | some m => cases hrun
          | none =>
            obtain ⟨hreach, hnotr⟩ := (ih psim).2 sim1 hrun
            exact ⟨RunReach.head hr hstep hreach, hnotr⟩
      · rename_i hr
        cases hrun
        exact ⟨RunReach.refl _, by simpa using hr⟩

/-- Witness for C7: a run whose very first step fails surfaces that
step's message and stops. -/
theorem spec_C7_witness :
    Simulator.run bqW 0 1 simF = some (some "step failure", { simF with integrator := 0 }) ∧
    (∃ s : Simulator ℚ, RunReach bqW 0 simF s ∧ s.running = true ∧
      s.step bqW 0 = some (some "step failure", { simF with integrator := 0 })) :=
  ⟨rfl, (spec_C7 bqW 0 1 simF).1 "step failure" { simF with integrator := 0 } rfl⟩

/-- C2 (the code, against the claim): the crossing time is computed by
the module-level `scipy.optimize.brentq` (the parameter `bq`), not by
the `rootfinder_constructor` stored at construction, and no entry of
`rootfinder_options` other than `xtol` (which only shifts the restart
point) influences the step: every observable of `step` — the returned
message, the result store and the integrator — is unchanged under an
arbitrary replacement of the configured root finder and of `maxiter`. -/
theorem spec_C2_rootfinder_ignored {σ : Type} (bq : (ℚ → ℚ) → ℚ → ℚ → ℚ)
    (junk : ℚ) (sim : Simulator σ)
    (rc₁ rc₂ : (ℚ → ℚ) → ℚ → ℚ → ℚ) (mi₁ mi₂ : ℚ) :
    (Simulator.step bq junk { sim with
        rootfinder_constructor := rc₁
        rootfinder_options := { xtol := sim.rootfinder_options.xtol, maxiter := mi₁ } }).map
      (fun p => (p.1, p.2.result, p.2.integrator)) =
    (Simulator.step bq junk { sim with
        rootfinder_constructor := rc₂
        rootfinder_options := { xtol := sim.rootfinder_options.xtol, maxiter := mi₂ } }).map
      (fun p => (p.1, p.2.result, p.2.integrator)) := by
  obtain ⟨sys, tb, res, ic, io, rc, ro, integ⟩ := sim
  obtain ⟨x, m⟩ := ro
  cases hds : ic.step integ with
  | mk pm i' =>
    cases pm with
    | some msg =>
      rw [step_fail_case bq junk (Simulator.mk sys tb res ic io rc₁ ⟨x, mi₁⟩ integ) msg i' hds,
        step_fail_case bq junk (Simulator.mk sys tb res ic io rc₂ ⟨x, mi₂⟩ integ) msg i' hds]
      rfl
    | none =>
      by_cases heo : eventsOccurred sys.num_events
          (sys.event_function (ic.t integ) (ic.y integ)
            (sys.output_function (ic.t integ) (ic.y integ)))
          (sys.event_function (ic.t i') (ic.y i')
            (sys.output_function (ic.t i') (ic.y i'))) = []
      · rw [step_noevent_case bq junk (Simulator.mk sys tb res ic io rc₁ ⟨x, mi₁⟩ integ) i' hds heo,
          step_noevent_case bq junk (Simulator.mk sys tb res ic io rc₂ ⟨x, mi₂⟩ integ) i' hds heo]
        rfl
      · have hpos : 0 < (eventsOccurred sys.num_events
            (sys.event_function (ic.t integ) (ic.y integ)
              (sys.output_function (ic.t integ) (ic.y integ)))
            (sys.event_function (ic.t i') (ic.y i')
              (sys.output_function (ic.t i') (ic.y i')))).length :=
          List.length_pos.mpr heo
        cases hcc : computeCrossings bq (eventInterpolator sys (ic.dense_output i'))
            (ic.t integ) (ic.t i')
            (eventsOccurred sys.num_events
              (sys.event_function (ic.t integ) (ic.y integ)
                (sys.output_function (ic.t integ) (ic.y integ)))
              (sys.event_function (ic.t i') (ic.y i')
                (sys.output_function (ic.t i') (ic.y i')))) with
        | none =>
          rw [step_assert_fail_case bq junk (Simulator.mk sys tb res ic io rc₁ ⟨x, mi₁⟩ integ) i' hds hpos hcc,
            step_assert_fail_case bq junk (Simulator.mk sys tb res ic io rc₂ ⟨x, mi₂⟩ integ) i' hds hpos hcc]
        | some tcross =>
          cases hms : tcross.mergeSort crossLE with
          | nil =>
            rw [step_sort_nil_case bq junk (Simulator.mk sys tb res ic io rc₁ ⟨x, mi₁⟩ integ) i' tcross hds hpos hcc hms,
              step_sort_nil_case bq junk (Simulator.mk sys tb res ic io rc₂ ⟨x, mi₂⟩ integ) i' tcross hds hpos hcc hms]
          | cons p restS =>
            obtain ⟨e, tc⟩ := p
            rw [step_event_case bq junk (Simulator.mk sys tb res ic io rc₁ ⟨x, mi₁⟩ integ) i' tcross restS e tc hds hpos hcc hms,
              step_event_case bq junk (Simulator.mk sys tb res ic io rc₂ ⟨x, mi₂⟩ integ) i' tcross restS e tc hds hpos hcc hms]
            rfl

/-- C10: after any `n` appends to a fresh result store, `current_idx`
is `n` and the four accessors return exactly `n` rows each. -/
theorem spec_C10 (sys : System) (junk : ℚ) (samples : List Sample) :
    (appendAll junk (SimulationResult.init sys junk) samples).current_idx =
      samples.length ∧
    (appendAll junk (SimulationResult.init sys junk) samples).t.length =
      samples.length ∧
    (appendAll junk (SimulationResult.init sys junk) samples).state.length =
      samples.length ∧
    (appendAll junk (SimulationResult.init sys junk) samples).output.length =
      samples.length ∧
    (appendAll junk (SimulationResult.init sys junk) samples).events.length =
      samples.length := by
  obtain ⟨w, hidx, hsys, ht, hs, ho, he⟩ :=
    appendAll_spec junk samples (SimulationResult.init sys junk) (init_wf sys junk)
  have h0 : (SimulationResult.init sys junk).current_idx = 0 := rfl
  have ht0 : (SimulationResult.init sys junk).t = [] := rfl
  have hs0 : (SimulationResult.init sys junk).state = [] := rfl
  have ho0 : (SimulationResult.init sys junk).output = [] := rfl
  have he0 : (SimulationResult.init sys junk).events = [] := rfl
  refine ⟨by rw [hidx, h0, Nat.zero_add], ?_, ?_, ?_, ?_⟩
  · rw [ht, ht0, List.nil_append, List.length_map]
  · rw [hs, hs0, List.nil_append, List.length_map]
  · rw [ho, ho0, List.nil_append, List.length_map]
  · rw [he, he0, List.nil_append, List.length_map]

/-- C4: appends to a fresh store extend capacity by the fixed chunk
`RESULT_SIZE_EXTENSION` exactly when an append would exceed it, the
accessors return exactly the appended rows (never uninitialized tail
capacity — the `junk` filling of `np.empty` storage is universally
quantified and absent from the result), and every previously appended
row is unchanged and in its original order after any later appends and
extensions. -/
theorem spec_C4 (sys : System) (junk : ℚ) :
    (∀ samples : List Sample,
      (appendAll junk (SimulationResult.init sys junk) samples).t =
        samples.map Sample.time ∧
      (appendAll junk (SimulationResult.init sys junk) samples).state =
        samples.map Sample.state ∧
      (appendAll junk (SimulationResult.init sys junk) samples).output =
        samples.map Sample.output ∧
      (appendAll junk (SimulationResult.init sys junk) samples).events =
        samples.map (fun s => eventRow sys.num_events s.event)) ∧
    (∀ (r : SimulationResult) (t : ℚ) (st out : List ℚ) (ev : Option Nat),
      (r.append junk t st out ev)._t.length =
        if r._t.length ≤ r.current_idx then r._t.length + RESULT_SIZE_EXTENSION
        else r._t.length) ∧
    (∀ pre post : List Sample,
      (appendAll junk (SimulationResult.init sys junk) (pre ++ post)).t.take
          pre.length =
        (appendAll junk (SimulationResult.init sys junk) pre).t ∧
      (appendAll junk (SimulationResult.init sys junk) (pre ++ post)).state.take
          pre.length =
        (appendAll junk (SimulationResult.init sys junk) pre).state ∧
      (appendAll junk (SimulationResult.init sys junk) (pre ++ post)).output.take
          pre.length =
        (appendAll junk (SimulationResult.init sys junk) pre).output ∧
      (appendAll junk (SimulationResult.init sys junk) (pre ++ post)).events.take
          pre.length =
        (appendAll junk (SimulationResult.init sys junk) pre).events) := by
  have hacc : ∀ samples : List Sample,
      (appendAll junk (SimulationResult.init sys junk) samples).t =
        samples.map Sample.time ∧
      (appendAll junk (SimulationResult.init sys junk) samples).state =
        samples.map Sample.state ∧
      (appendAll junk (SimulationResult.init sys junk) samples).output =
        samples.map Sample.output ∧
      (appendAll junk (SimulationResult.init sys junk) samples).events =
        samples.map (fun s => eventRow sys.num_events s.event) := by
    intro samples
    obtain ⟨w, hidx, hsys, ht, hs, ho, he⟩ :=
      appendAll_spec junk samples (SimulationResult.init sys junk) (init_wf sys junk)
    have ht0 : (SimulationResult.init sys junk).t = [] := rfl
    have hs0 : (SimulationResult.init sys junk).state = [] := rfl
    have ho0 : (SimulationResult.init sys junk).output = [] := rfl
    have he0 : (SimulationResult.init sys junk).events = [] := rfl
    exact ⟨by rw [ht, ht0, List.nil_append],
      by rw [hs, hs0, List.nil_append],
      by rw [ho, ho0, List.nil_append],
      by rw [he, he0, List.nil_append]; rfl⟩
  refine ⟨hacc, fun r t st out ev => append_capacity junk r t st out ev, ?_⟩
  intro pre post
  obtain ⟨hft, hfs, hfo, hfe⟩ := hacc (pre ++ post)
  obtain ⟨hpt, hps, hpo, hpe⟩ := hacc pre
  refine ⟨?_, ?_, ?_, ?_⟩
  · rw [hft, hpt, List.map_append, List.take_left' (List.length_map pre Sample.time)]
  · rw [hfs, hps, List.map_append, List.take_left' (List.length_map pre Sample.state)]
  · rw [hfo, hpo, List.map_append, List.take_left' (List.length_map pre Sample.output)]
  · rw [hfe, hpe, List.map_append, List.take_left' (List.length_map pre _)]

/-- C9: a `State` built without an explicit initial condition stores the
all-zeros array of its declared shape (`np.zeros(self.shape)`, i.e. one
zero per scalar element); an explicit initial condition is stored
converted to an array with its values unchanged. -/
theorem spec_C9 (sys : SysModel) (shape : List Nat) :
    (mkState sys shape none).1.initial_condition =
      List.replicate (mkState sys shape none).1.size 0 ∧
    ∀ v : List ℚ, (mkState sys shape (some v)).1.initial_condition = v :=
  ⟨rfl, fun _ => rfl⟩

/-- C8: every state's slice of the global state vector is the
contiguous interval starting at the `state_index` allocated by the
owning system at creation, of length exactly the state's `size`;
slices of distinct states are pairwise disjoint; and indices assigned
at construction never change when further states are created. -/
theorem spec_C8 (specs : List (List Nat × Option (List ℚ))) :
    (buildSystem specs).states.Pairwise (fun a b =>
      Disjoint (entryRec a).state_slice (entryRec b).state_slice) ∧
    (∀ e ∈ (buildSystem specs).states,
      (entryRec e).state_slice =
        Finset.Ico (entryRec e).state_index
          ((entryRec e).state_index + (entryRec e).size) ∧
      (entryRec e).state_slice.card = (entryRec e).size) ∧
    (∀ (sys : SysModel) (shape : List Nat) (ic : Option (List ℚ)),
      (mkState sys shape ic).1.state_index =
        (sys.allocate_state_lines ({ shape := shape } : AbstractSignal).size).1) ∧
    (∀ extra : List (List Nat × Option (List ℚ)),
      (buildSystem (specs ++ extra)).states.take (buildSystem specs).states.length =
        (buildSystem specs).states) := by
  obtain ⟨hbelow, hpw⟩ := buildSystem_blocks specs { num_states := 0, states := [] }
    (by intro e he; cases he) List.Pairwise.nil
  refine ⟨?_, ?_, ?_, ?_⟩
  · exact hpw.imp (fun hab => slice_disjoint _ _ hab)
  · intro e _
    refine ⟨rfl, ?_⟩
    rw [StateRec.state_slice, Nat.card_Ico]
    omega
  · intro sys shape ic
    rfl
  · intro extra
    rw [buildSystem, buildSystem, List.foldl_append]
    obtain ⟨tail, htail⟩ := foldl_states_extend extra
      (specs.foldl (fun s p => (mkState s p.1 p.2).2) { num_states := 0, states := [] })
    rw [htail, List.take_left]

/-- Witness for C8 on a concrete three-state model (shapes `[2]`,
scalar, `[3]`): the middle state is a member and its slice facts hold. -/
theorem spec_C8_witness :
    (({ shape := [] } : AbstractSignal), [(5 : ℚ)], 2) ∈ (buildSystem specsW).states ∧
    ((entryRec (({ shape := [] } : AbstractSignal), [(5 : ℚ)], 2)).state_slice =
      Finset.Ico (entryRec (({ shape := [] } : AbstractSignal), [(5 : ℚ)], 2)).state_index
        ((entryRec (({ shape := [] } : AbstractSignal), [(5 : ℚ)], 2)).state_index +
          (entryRec (({ shape := [] } : AbstractSignal), [(5 : ℚ)], 2)).size) ∧
     (entryRec (({ shape := [] } : AbstractSignal), [(5 : ℚ)], 2)).state_slice.card =
      (entryRec (({ shape := [] } : AbstractSignal), [(5 : ℚ)], 2)).size) :=
  ⟨by decide, (spec_C8 specsW).2.1
    (({ shape := [] } : AbstractSignal), [(5 : ℚ)], 2) (by decide)⟩
